import Mathlib

/-!
Verification of the agentpod orchestration engine.

This file gives a shallow embedding, in Lean 4, of the parts of the
agentpod Go source that the specification's claims are about:

* the tool-call data model (`ToolCall`, `ChatMessage`);
* the duplicate-skill suppression in `Agent.chooseSkills` (agent orchestrator);
* the skill-execution loop `Agent.SkillContextRunner` with its iteration
  ceiling `maxSkillLoops = 25`, its stop-tool separation and its
  assistant-message filtering;
* the per-round tool dispatch with error classification
  (`MessageWhenToolError`, `MessageWhenToolErrorWithRetry`,
  Ignorable/Retryable error handling);
* the top-level `Agent.Run` control flow, its result collation
  (`collateSkillCallResults`, `returnSingleToolResult`,
  `summarizeMultipleToolResults`) and its `Response` emissions;
* `Session.run`'s forwarding of agent responses to the caller-visible
  output channel;
* `MessageList.Clone` / `Add` / `ReplaceAt` over an explicit heap of
  backing sequences (to state the non-aliasing claim);
* `MemoryBlock` with `AddString`, `AddBlock`, `Delete` and the
  order-preserving serializer `Parse` / `parseWithIndent`.

External effects (the LLM, tool executions, JSON parsing) are passed in
as function parameters, so every definition is executable on concrete
inputs.
-/

/-- One function invocation requested by the model: a function name and a
raw JSON argument string (openai `ChatCompletionMessageToolCall.Function`). -/
structure ToolFunction where
  name : String
  arguments : String
deriving DecidableEq, Repr

/-- A tool call as it appears in a model completion: a call identifier plus
the function being called. -/
structure ToolCall where
  id : String
  function : ToolFunction
deriving DecidableEq, Repr

/-- Parsed JSON argument object, restricted to its string-valued fields
(the Go code only ever reads string-typed fields such as "response" and
"instruction"; a field whose JSON value is not a string behaves like an
absent field there). -/
abbrev ArgsMap := List (String × String)

/-- A conversation entry, mirroring the message kinds stored in a
`MessageList` (user / assistant / developer / tool-result). The assistant
constructor carries the optional tool-call list of the model message;
`none` mirrors a nil `ToolCalls` slice in Go. -/
inductive ChatMessage where
  | user (content : String)
  | assistant (content : String) (toolCalls : Option (List ToolCall))
  | developer (content : String)
  | tool (content : String) (toolCallID : String)
deriving DecidableEq, Repr

/-- The discriminator of a `Response` sent from the engine to the caller
(`response.go`). -/
inductive ResponseType where
  | status
  | partialText
  | endType
  | inputRequest
  | errorType
  | thinkingStart
  | thinking
  | thinkingEnd
deriving DecidableEq, Repr

/-- A communication unit from the Agent/Session to the caller (`response.go`). -/
structure Response where
  content : String
  type : ResponseType
deriving DecidableEq, Repr

/-- The terminal marker `Response{Type: ResponseTypeEnd}`. -/
def endResponse : Response := { content := "", type := ResponseType.endType }

/-- Number of `End`-typed responses in a stream. -/
def countEnd (rs : List Response) : Nat :=
  (rs.filter (fun r => r.type = ResponseType.endType)).length

/-- Duplicate suppression of `Agent.chooseSkills`: walk the tool calls in
order, keeping a call only when its function name has not been seen yet
(Go keeps a `seenSkills` map and appends first occurrences to
`uniqueToolCalls`). -/
def dedupToolCallsAux (seen : List String) : List ToolCall → List ToolCall
  | [] => []
  | tc :: rest =>
    if tc.function.name ∈ seen then dedupToolCallsAux seen rest
    else tc :: dedupToolCallsAux (tc.function.name :: seen) rest

/-- The tool-call post-processing of `Agent.chooseSkills`: the
de-duplication pass is only run when the completion carries more than one
tool call (`len(completion.Choices[0].Message.ToolCalls) > 1`). -/
def chooseSkillsProcess (tcs : List ToolCall) : List ToolCall :=
  if 1 < tcs.length then dedupToolCallsAux [] tcs else tcs

lemma dedupToolCallsAux_sublist (seen : List String) (tcs : List ToolCall) :
    (dedupToolCallsAux seen tcs).Sublist tcs := by
  induction tcs generalizing seen with
  | nil => simp [dedupToolCallsAux]
  | cons tc rest ih =>
    by_cases h : tc.function.name ∈ seen
    · simp only [dedupToolCallsAux, if_pos h]
      exact (ih seen).trans (List.sublist_cons_self _ _)
    · simp only [dedupToolCallsAux, if_neg h]
      exact (ih (tc.function.name :: seen)).cons₂ tc

lemma dedupToolCallsAux_filter_name (seen : List String) (tcs : List ToolCall)
    (n : String) :
    (dedupToolCallsAux seen tcs).filter (fun tc => tc.function.name = n)
      = if n ∈ seen then []
        else (tcs.filter (fun tc => tc.function.name = n)).take 1 := by
  induction tcs generalizing seen with
  | nil => simp [dedupToolCallsAux]
  | cons tc rest ih =>
    by_cases hseen : tc.function.name ∈ seen
    · simp only [dedupToolCallsAux, if_pos hseen]
      rw [ih seen]
      by_cases hn : n ∈ seen
      · simp [hn]
      · have hne : ¬ tc.function.name = n := fun h => hn (h ▸ hseen)
        simp [hn, List.filter_cons, hne]
    · simp only [dedupToolCallsAux, if_neg hseen]
      by_cases heq : tc.function.name = n
      · subst heq
        rw [List.filter_cons, List.filter_cons]
        simp only [decide_True, if_pos rfl]
        rw [ih (tc.function.name :: seen)]
        simp [List.mem_cons, hseen]
      · rw [List.filter_cons, List.filter_cons]
        simp only [heq, decide_False]
        rw [ih (tc.function.name :: seen)]
        by_cases hn : n ∈ seen
        · simp [hn, List.mem_cons]
        · have : ¬ n ∈ tc.function.name :: seen := by
            intro h
            rcases List.mem_cons.mp h with h | h
            · exact heq h.symm
            · exact hn h
          simp [hn, this]

lemma dedupToolCallsAux_names_nodup (seen : List String) (tcs : List ToolCall) :
    ((dedupToolCallsAux seen tcs).map (fun tc => tc.function.name)).Nodup := by
  induction tcs generalizing seen with
  | nil => simp [dedupToolCallsAux]
  | cons tc rest ih =>
    by_cases h : tc.function.name ∈ seen
    · simp only [dedupToolCallsAux, if_pos h]
      exact ih seen
    · simp only [dedupToolCallsAux, if_neg h, List.map_cons, List.nodup_cons]
      refine ⟨?_, ih (tc.function.name :: seen)⟩
      intro hmem
      rcases List.mem_map.mp hmem with ⟨tc', htc', hname⟩
      have hfilter := dedupToolCallsAux_filter_name (tc.function.name :: seen)
        rest tc.function.name
      have : tc' ∈ (dedupToolCallsAux (tc.function.name :: seen) rest).filter
          (fun tc'' => tc''.function.name = tc.function.name) := by
        rw [List.mem_filter]
        exact ⟨htc', by simp [hname]⟩
      rw [hfilter] at this
      simp [List.mem_cons] at this

/-- C6: the processed tool-call list of `chooseSkills` keeps, for every
skill name, exactly the first call with that name, preserves the original
order (it is a sublist), and has pairwise-distinct function names. -/
theorem chooseSkills_dedup_first_occurrence (tcs : List ToolCall) :
    (chooseSkillsProcess tcs).Sublist tcs
    ∧ ((chooseSkillsProcess tcs).map (fun tc => tc.function.name)).Nodup
    ∧ ∀ n : String,
        (chooseSkillsProcess tcs).filter (fun tc => tc.function.name = n)
          = (tcs.filter (fun tc => tc.function.name = n)).take 1 := by
  unfold chooseSkillsProcess
  by_cases h : 1 < tcs.length
  · simp only [if_pos h]
    refine ⟨dedupToolCallsAux_sublist [] tcs,
      dedupToolCallsAux_names_nodup [] tcs, fun n => ?_⟩
    rw [dedupToolCallsAux_filter_name [] tcs n]
    simp
  · simp only [if_neg h]
    match tcs, h with
    | [], _ => simp
    | [tc], _ =>
      refine ⟨List.Sublist.refl _, by simp, fun n => ?_⟩
      by_cases hn : tc.function.name = n <;> simp [List.filter_cons, hn]
    | tc₁ :: tc₂ :: rest, h => exact absurd (by simp) h

/-- The iteration ceiling of the skill loop (`const maxSkillLoops = 25`). -/
def maxSkillLoops : Nat := 25

/-- One model completion inside the skill loop: the assistant content and
the optional tool-call list (`completion.Choices[0].Message`). -/
structure SkillCompletion where
  content : String
  toolCalls : Option (List ToolCall)
deriving DecidableEq, Repr

/-- Outcome of `Agent.SkillContextRunner`, as distinguished by its return
paths: the max-iterations hard failure, a normal stop with the stop tool's
response text, the defensive "did not produce a valid response" sentinel,
and an LLM call failure. -/
inductive SkillRunResult where
  | maxIterations
  | stopped (response : String)
  | invalidNoResponse
  | llmError
deriving DecidableEq, Repr

/-- Stop-tool response capture: for one stop tool call, update the
remembered `stopToolResponse` exactly as the Go loop does (only when the
argument string is nonempty, parses as JSON, and carries a string-valued
"response" field). -/
def updateStopResp (parse : String → Option ArgsMap) (acc : String)
    (tc : ToolCall) : String :=
  if tc.function.arguments ≠ "" then
    match parse tc.function.arguments with
    | some args =>
      match args.lookup "response" with
      | some v => v
      | none => acc
    | none => acc
  else acc

/-- Assistant-message filtering of the skill loop: when the completion has
a tool-call list, stop calls are filtered out and the assistant message is
appended only when some non-stop call remains; when the tool-call list is
nil the assistant message is appended unchanged. -/
def filterAssistantAppend (hist : List ChatMessage) (content : String) :
    Option (List ToolCall) → List ChatMessage
  | none => hist ++ [ChatMessage.assistant content none]
  | some tcs =>
    let filtered := tcs.filter (fun tc => tc.function.name ≠ "stop")
    if filtered.length > 0 then
      hist ++ [ChatMessage.assistant content (some filtered)]
    else hist

/-- One round's tool-result messages in the skill loop of part_002: each
non-stop tool call is run through skill-tool lookup, JSON argument
parsing and execution; a failing call yields `nil` on the results channel
and is skipped, a successful call yields a tool message with the output.
`execRes` abstracts that composite (`some output` on success, `none` on
any failure). -/
def skillRoundToolMessages (execRes : ToolCall → Option String)
    (tcs : List ToolCall) : List ChatMessage :=
  tcs.filterMap (fun tc => (execRes tc).map (fun out => ChatMessage.tool out tc.id))

/-- The skill loop of `Agent.SkillContextRunner` (part_002).
`remaining = maxSkillLoops - i` counts the rounds still allowed before the
`i >= maxSkillLoops` guard fires. The result is the run outcome, the
number of model calls made, and the final message history. -/
def skillLoopAux (parse : String → Option ArgsMap)
    (model : Nat → Option SkillCompletion)
    (execRes : ToolCall → Option String)
    (i : Nat) (stopResp : String) (hist : List ChatMessage) :
    Nat → SkillRunResult × Nat × List ChatMessage
  | 0 => (SkillRunResult.maxIterations, 0, hist)
  | remaining + 1 =>
    match model i with
    | none => (SkillRunResult.llmError, 1, hist)
    | some c =>
      let tcs := c.toolCalls.getD []
      let stops := tcs.filter (fun tc => tc.function.name = "stop")
      let skillToolCalls := tcs.filter (fun tc => tc.function.name ≠ "stop")
      let stopResp' := stops.foldl (updateStopResp parse) stopResp
      let hist1 := filterAssistantAppend hist c.content c.toolCalls
      let hist2 := hist1 ++ skillRoundToolMessages execRes skillToolCalls
      if stops.length > 0 ∨ c.toolCalls = none then
        (if stopResp' ≠ "" then SkillRunResult.stopped stopResp'
         else SkillRunResult.invalidNoResponse, 1, hist2)
      else
        let rec' := skillLoopAux parse model execRes (i + 1) stopResp' hist2 remaining
        (rec'.1, rec'.2.1 + 1, rec'.2.2)

/-- `Agent.SkillContextRunner`'s loop entered at `i = 0` with an empty
remembered stop response. -/
def skillContextRunnerLoop (parse : String → Option ArgsMap)
    (model : Nat → Option SkillCompletion)
    (execRes : ToolCall → Option String)
    (hist : List ChatMessage) : SkillRunResult × Nat × List ChatMessage :=
  skillLoopAux parse model execRes 0 "" hist maxSkillLoops

lemma skillLoopAux_rounds_le (parse : String → Option ArgsMap)
    (model : Nat → Option SkillCompletion) (execRes : ToolCall → Option String)
    (i : Nat) (stopResp : String) (hist : List ChatMessage) (remaining : Nat) :
    (skillLoopAux parse model execRes i stopResp hist remaining).2.1 ≤ remaining := by
  induction remaining generalizing i stopResp hist with
  | zero => simp [skillLoopAux]
  | succ r ih =>
    simp only [skillLoopAux]
    match model i with
    | none => simp
    | some c =>
      simp only
      by_cases h : ((c.toolCalls.getD []).filter
          (fun tc => tc.function.name = "stop")).length > 0 ∨ c.toolCalls = none
      · simp [if_pos h]
      · simp only [if_neg h]
        exact Nat.succ_le_succ (ih _ _ _)

lemma skillLoopAux_adversarial (parse : String → Option ArgsMap)
    (model : Nat → Option SkillCompletion) (execRes : ToolCall → Option String)
    (remaining : Nat) :
    ∀ i stopResp hist,
      (∀ j, i ≤ j → j < i + remaining →
        ∃ c tcs, model j = some c ∧ c.toolCalls = some tcs ∧ tcs ≠ [] ∧
          ∀ tc ∈ tcs, tc.function.name ≠ "stop") →
      (skillLoopAux parse model execRes i stopResp hist remaining).1
          = SkillRunResult.maxIterations
      ∧ (skillLoopAux parse model execRes i stopResp hist remaining).2.1
          = remaining := by
  induction remaining with
  | zero => intro i stopResp hist _; simp [skillLoopAux]
  | succ r ih =>
    intro i stopResp hist hmodel
    obtain ⟨c, tcs, hc, htcs, hne, hnostop⟩ :=
      hmodel i (Nat.le_refl i) (Nat.lt_add_of_pos_right (Nat.succ_pos r))
    have hstops : (c.toolCalls.getD []).filter
        (fun tc => tc.function.name = "stop") = [] := by
      rw [htcs]
      simp only [Option.getD_some]
      rw [List.filter_eq_nil_iff]
      intro tc htc
      simpa using hnostop tc htc
    have hnotnone : ¬ c.toolCalls = none := by simp [htcs]
    have hcond : ¬ (((c.toolCalls.getD []).filter
        (fun tc => tc.function.name = "stop")).length > 0 ∨ c.toolCalls = none) := by
      rw [hstops]
      simp [hnotnone]
    have ihnext := ih (i + 1)
      (((c.toolCalls.getD []).filter (fun tc => tc.function.name = "stop")).foldl
        (updateStopResp parse) stopResp)
      (filterAssistantAppend hist c.content c.toolCalls ++
        skillRoundToolMessages execRes
          ((c.toolCalls.getD []).filter (fun tc => tc.function.name ≠ "stop")))
      (by
        intro j hj₁ hj₂
        exact hmodel j (Nat.le_of_succ_le hj₁) (by omega))
    simp only [skillLoopAux, hc, if_neg hcond]
    exact ⟨ihnext.1, by rw [ihnext.2]⟩

/-- C2: if the model never calls the stop tool and requests at least one
tool call on every round, the skill loop makes exactly `maxSkillLoops = 25`
model calls and then returns the distinct max-iterations hard failure; and
for every model whatsoever, the loop makes at most 25 model calls. -/
theorem skillLoop_max_iterations (parse : String → Option ArgsMap)
    (model : Nat → Option SkillCompletion) (execRes : ToolCall → Option String)
    (hist : List ChatMessage)
    (hadv : ∀ j, j < maxSkillLoops →
      ∃ c tcs, model j = some c ∧ c.toolCalls = some tcs ∧ tcs ≠ [] ∧
        ∀ tc ∈ tcs, tc.function.name ≠ "stop") :
    (skillContextRunnerLoop parse model execRes hist).1
        = SkillRunResult.maxIterations
    ∧ (skillContextRunnerLoop parse model execRes hist).2.1 = maxSkillLoops
    ∧ ∀ (model' : Nat → Option SkillCompletion) (hist' : List ChatMessage),
        (skillContextRunnerLoop parse model' execRes hist').2.1 ≤ maxSkillLoops := by
  have h := skillLoopAux_adversarial parse model execRes maxSkillLoops 0 "" hist
    (by intro j hj₁ hj₂; exact hadv j (by omega))
  exact ⟨h.1, h.2, fun model' hist' =>
    skillLoopAux_rounds_le parse model' execRes 0 "" hist' maxSkillLoops⟩

/-- A concrete adversarial model for the C2 witness: every round answers
with one non-stop tool call. -/
def adversarialModel : Nat → Option SkillCompletion := fun _ =>
  some { content := "",
         toolCalls := some [{ id := "call-1",
                              function := { name := "query", arguments := "" } }] }

/-- Witness for C2: at the concrete adversarial model, the hypotheses hold
and the loop stops with the max-iterations failure after exactly 25 rounds. -/
theorem skillLoop_max_iterations_witness :
    (skillContextRunnerLoop (fun _ => none) adversarialModel (fun _ => none) []).1
        = SkillRunResult.maxIterations
    ∧ (skillContextRunnerLoop (fun _ => none) adversarialModel (fun _ => none) []).2.1
        = maxSkillLoops
    ∧ ∀ (model' : Nat → Option SkillCompletion) (hist' : List ChatMessage),
        (skillContextRunnerLoop (fun _ => none) model' (fun _ => none) hist').2.1
            ≤ maxSkillLoops :=
  skillLoop_max_iterations (fun _ => none) adversarialModel (fun _ => none) []
    (fun j _ => ⟨{ content := "",
                   toolCalls := some [{ id := "call-1",
                                        function := { name := "query", arguments := "" } }] },
      [{ id := "call-1", function := { name := "query", arguments := "" } }],
      rfl, rfl, by simp, by intro tc htc; simp at htc; subst htc; decide⟩)

/-- An entry is "stop-free" when it is not an assistant message carrying a
tool call named "stop". -/
def entryStopFree : ChatMessage → Prop
  | ChatMessage.assistant _ (some tcs) => ∀ tc ∈ tcs, tc.function.name ≠ "stop"
  | _ => True

instance (e : ChatMessage) : Decidable (entryStopFree e) := by
  cases e with
  | assistant content toolCalls =>
    cases toolCalls with
    | none => exact isTrue trivial
    | some tcs => exact List.decidableBAll _ tcs
  | user content => exact isTrue trivial
  | developer content => exact isTrue trivial
  | tool content id => exact isTrue trivial

lemma filterAssistantAppend_stopFree (hist : List ChatMessage)
    (content : String) (tcs : Option (List ToolCall)) :
    ∀ e ∈ filterAssistantAppend hist content tcs, e ∈ hist ∨ entryStopFree e := by
  intro e he
  cases tcs with
  | none =>
    rw [filterAssistantAppend, List.mem_append] at he
    rcases he with h | h
    · exact Or.inl h
    · simp at h
      subst h
      exact Or.inr trivial
  | some l =>
    rw [filterAssistantAppend] at he
    by_cases hlen : (l.filter (fun tc => tc.function.name ≠ "stop")).length > 0
    · simp only [if_pos hlen, List.mem_append] at he
      rcases he with h | h
      · exact Or.inl h
      · simp at h
        subst h
        refine Or.inr ?_
        intro tc htc
        have := List.of_mem_filter htc
        simpa using this
    · simp only [if_neg hlen] at he
      exact Or.inl he

lemma skillLoopAux_stopFree (parse : String → Option ArgsMap)
    (model : Nat → Option SkillCompletion) (execRes : ToolCall → Option String)
    (remaining : Nat) :
    ∀ i stopResp hist, (∀ e ∈ hist, entryStopFree e) →
      ∀ e ∈ (skillLoopAux parse model execRes i stopResp hist remaining).2.2,
        entryStopFree e := by
  induction remaining with
  | zero => intro i stopResp hist hh e he; exact hh e he
  | succ r ih =>
    intro i stopResp hist hh e he
    rw [skillLoopAux] at he
    match hmi : model i with
    | none =>
      rw [hmi] at he
      exact hh e he
    | some c =>
      rw [hmi] at he
      simp only at he
      have hround : ∀ e' ∈
          filterAssistantAppend hist c.content c.toolCalls ++
            skillRoundToolMessages execRes
              ((c.toolCalls.getD []).filter (fun tc => tc.function.name ≠ "stop")),
          entryStopFree e' := by
        intro e' he'
        rw [List.mem_append] at he'
        rcases he' with h | h
        · rcases filterAssistantAppend_stopFree hist c.content c.toolCalls e' h with
            hmem | hfree
          · exact hh e' hmem
          · exact hfree
        · rw [skillRoundToolMessages, List.mem_filterMap] at h
          obtain ⟨tc, _, htc⟩ := h
          match hres : execRes tc with
          | none => rw [hres] at htc; simp at htc
          | some out =>
            rw [hres] at htc
            simp at htc
            rw [← htc]
            exact trivial
      by_cases hcond : ((c.toolCalls.getD []).filter
          (fun tc => tc.function.name = "stop")).length > 0 ∨ c.toolCalls = none
      · rw [if_pos hcond] at he
        exact hround e he
      · rw [if_neg hcond] at he
        exact ih (i + 1) _ _ hround e he

/-- C10: in the skill loop, (a) every entry that an assistant-message
append adds to the history is stop-free (stop calls are filtered out
before the append); (b) when the completion's tool calls are all "stop"
calls, no assistant message is appended at all; (c) consequently the skill
loop preserves the invariant that no stored assistant entry carries a
"stop" tool call. -/
theorem skillLoop_no_stop_in_history (hist : List ChatMessage)
    (content : String) (tcs : Option (List ToolCall)) (l : List ToolCall)
    (parse : String → Option ArgsMap) (model : Nat → Option SkillCompletion)
    (execRes : ToolCall → Option String) (hist₀ : List ChatMessage)
    (hallstop : ∀ tc ∈ l, tc.function.name = "stop")
    (hinit : ∀ e ∈ hist₀, entryStopFree e) :
    (∀ e ∈ filterAssistantAppend hist content tcs, e ∈ hist ∨ entryStopFree e)
    ∧ filterAssistantAppend hist content (some l) = hist
    ∧ ∀ e ∈ (skillContextRunnerLoop parse model execRes hist₀).2.2, entryStopFree e := by
  refine ⟨filterAssistantAppend_stopFree hist content tcs, ?_, ?_⟩
  · rw [filterAssistantAppend]
    have : l.filter (fun tc => tc.function.name ≠ "stop") = [] := by
      rw [List.filter_eq_nil_iff]
      intro tc htc
      simpa using hallstop tc htc
    rw [this]
    simp
  · exact skillLoopAux_stopFree parse model execRes maxSkillLoops 0 "" hist₀ hinit

/-- Witness for C10 at concrete inputs: a history holding one user entry, a
turn whose calls are all stop calls, and the adversarial model run. -/
theorem skillLoop_no_stop_in_history_witness :
    (∀ e ∈ filterAssistantAppend [ChatMessage.user "hi"] "c"
        (some [{ id := "1", function := { name := "stop", arguments := "" } }]),
      e ∈ [ChatMessage.user "hi"] ∨ entryStopFree e)
    ∧ filterAssistantAppend [ChatMessage.user "hi"] "c"
        (some [{ id := "1", function := { name := "stop", arguments := "" } }])
        = [ChatMessage.user "hi"]
    ∧ ∀ e ∈ (skillContextRunnerLoop (fun _ => none) adversarialModel
        (fun _ => none) [ChatMessage.user "hi"]).2.2, entryStopFree e :=
  skillLoop_no_stop_in_history [ChatMessage.user "hi"] "c"
    (some [{ id := "1", function := { name := "stop", arguments := "" } }])
    [{ id := "1", function := { name := "stop", arguments := "" } }]
    (fun _ => none) adversarialModel (fun _ => none) [ChatMessage.user "hi"]
    (by intro tc htc; simp at htc; subst htc; rfl)
    (by intro e he; simp at he; subst he; exact trivial)

/-- Outcome of `Tool.Execute`: success with output text, or an error that is
an `*IgnorableError`, a `*RetryableError`, or some other (unclassified)
error, each carrying its `Error()` text. -/
inductive ToolExecOutcome where
  | success (output : String)
  | ignorableErr (msg : String)
  | retryableErr (msg : String)
  | otherErr (msg : String)
deriving DecidableEq, Repr

/-- A tool registered on a skill: its name and its execution function over
parsed arguments. -/
structure SkillTool where
  name : String
  exec : ArgsMap → ToolExecOutcome

/-- A skill as seen by the tool-dispatch loop: a name and an ordered list
of tools. -/
structure SkillDef where
  name : String
  tools : List SkillTool

/-- `Skill.GetTool`: linear scan returning the first tool whose name
matches (`tool %s not found` error is modelled as `none`). -/
def getTool (sk : SkillDef) (n : String) : Option SkillTool :=
  sk.tools.find? (fun t => t.name == n)

/-- `MessageWhenToolError`: the generic do-not-retry tool-result message. -/
def messageWhenToolError (toolCallID : String) : ChatMessage :=
  ChatMessage.tool "Error occurred while running. Do not retry" toolCallID

/-- `MessageWhenToolErrorWithRetry`: the retry tool-result message built
from the error text. -/
def messageWhenToolErrorWithRetry (errorString : String) (toolCallID : String) :
    ChatMessage :=
  ChatMessage.tool ("Error: " ++ errorString ++ ".\nRetry") toolCallID

/-- One tool call's dispatch in `Agent.SkillContextRunner` (agent.go,
lines 554-598): look the tool up by name (unknown name yields the
do-not-retry message), parse the JSON arguments (`parse` returns the
decode error text on failure, which yields the retry message — the Go
code addresses that message to `skillToolCallID`), then execute and
classify any execution error (Ignorable and unclassified errors yield the
do-not-retry message; Retryable errors yield the retry message). -/
def dispatchToolCall (parse : String → Except String ArgsMap) (sk : SkillDef)
    (skillToolCallID : String) (tc : ToolCall) : ChatMessage :=
  match getTool sk tc.function.name with
  | none => messageWhenToolError tc.id
  | some tool =>
    match parse tc.function.arguments with
    | Except.error e => messageWhenToolErrorWithRetry e skillToolCallID
    | Except.ok args =>
      match tool.exec args with
      | ToolExecOutcome.success output => ChatMessage.tool output tc.id
      | ToolExecOutcome.ignorableErr _ => messageWhenToolError tc.id
      | ToolExecOutcome.retryableErr m => messageWhenToolErrorWithRetry m tc.id
      | ToolExecOutcome.otherErr _ => messageWhenToolError tc.id

/-- One round of the sequential tool-dispatch loop: every requested call
produces exactly one appended tool-result message; no call aborts the
round. -/
def dispatchRound (parse : String → Except String ArgsMap) (sk : SkillDef)
    (skillToolCallID : String) (tcs : List ToolCall) : List ChatMessage :=
  tcs.map (dispatchToolCall parse sk skillToolCallID)

/-- Whether an entry is a tool-result message. -/
def isToolResult : ChatMessage → Prop
  | ChatMessage.tool _ _ => True
  | _ => False

instance (e : ChatMessage) : Decidable (isToolResult e) := by
  cases e with
  | tool content id => exact isTrue trivial
  | user content => exact isFalse (fun h => h)
  | assistant content toolCalls => exact isFalse (fun h => h)
  | developer content => exact isFalse (fun h => h)

/-- C3: every tool call of a round yields exactly one tool-result message
(none is lost, none escapes as a runtime failure), and the message is
classified as the code prescribes: unknown tool name gives the Ignorable
do-not-retry result; a JSON parse failure gives the Retryable retry
result; an executing tool's Retryable error gives the retry result, while
Ignorable and unclassified errors give the do-not-retry result. -/
theorem toolDispatch_classification (parse : String → Except String ArgsMap)
    (sk : SkillDef) (sid : String) (tcs : List ToolCall) (tc : ToolCall)
    (tool : SkillTool) (e : String) (args : ArgsMap) (m : String) :
    (dispatchRound parse sk sid tcs).length = tcs.length
    ∧ (∀ msg ∈ dispatchRound parse sk sid tcs, isToolResult msg)
    ∧ (getTool sk tc.function.name = none →
        dispatchToolCall parse sk sid tc = messageWhenToolError tc.id)
    ∧ (getTool sk tc.function.name = some tool →
        parse tc.function.arguments = Except.error e →
        dispatchToolCall parse sk sid tc = messageWhenToolErrorWithRetry e sid)
    ∧ (getTool sk tc.function.name = some tool →
        parse tc.function.arguments = Except.ok args →
        tool.exec args = ToolExecOutcome.retryableErr m →
        dispatchToolCall parse sk sid tc = messageWhenToolErrorWithRetry m tc.id)
    ∧ (getTool sk tc.function.name = some tool →
        parse tc.function.arguments = Except.ok args →
        tool.exec args = ToolExecOutcome.ignorableErr m →
        dispatchToolCall parse sk sid tc = messageWhenToolError tc.id)
    ∧ (getTool sk tc.function.name = some tool →
        parse tc.function.arguments = Except.ok args →
        tool.exec args = ToolExecOutcome.otherErr m →
        dispatchToolCall parse sk sid tc = messageWhenToolError tc.id) := by
  refine ⟨by rw [dispatchRound, List.length_map], ?_, ?_, ?_, ?_, ?_, ?_⟩
  · intro msg hmsg
    rw [dispatchRound, List.mem_map] at hmsg
    obtain ⟨tc', _, htc'⟩ := hmsg
    rw [← htc']
    rw [dispatchToolCall]
    split
    · exact trivial
    · split
      · exact trivial
      · split <;> exact trivial
  · intro h
    simp only [dispatchToolCall, h]
  · intro h hp
    simp only [dispatchToolCall, h, hp]
  · intro h hp hx
    simp only [dispatchToolCall, h, hp, hx]
  · intro h hp hx
    simp only [dispatchToolCall, h, hp, hx]
  · intro h hp hx
    simp only [dispatchToolCall, h, hp, hx]

/-- A concrete skill for the C3 witness: one tool "query" that fails with
a Retryable error on empty arguments. -/
def witnessSkill : SkillDef :=
  { name := "research",
    tools := [{ name := "query",
                exec := fun args =>
                  if args.isEmpty then ToolExecOutcome.retryableErr "empty input"
                  else ToolExecOutcome.success "ok" }] }

/-- A concrete argument parser for the C3 witness: accepts "good" as the
empty object and rejects everything else with a decode error text. -/
def witnessParse : String → Except String ArgsMap := fun s =>
  if s = "good" then Except.ok [] else Except.error "invalid character"

/-- Witness for C3 at a concrete skill, parser and tool-call round:
unknown-name, parse-failure and retryable-execution calls each become the
prescribed tool-result message. -/
theorem toolDispatch_classification_witness :
    (dispatchRound witnessParse witnessSkill "sid"
        [{ id := "a", function := { name := "nosuch", arguments := "good" } },
         { id := "b", function := { name := "query", arguments := "bad" } },
         { id := "c", function := { name := "query", arguments := "good" } }]).length
      = 3
    ∧ (∀ msg ∈ dispatchRound witnessParse witnessSkill "sid"
        [{ id := "a", function := { name := "nosuch", arguments := "good" } },
         { id := "b", function := { name := "query", arguments := "bad" } },
         { id := "c", function := { name := "query", arguments := "good" } }],
        isToolResult msg)
    ∧ (getTool witnessSkill "nosuch" = none →
        dispatchToolCall witnessParse witnessSkill "sid"
          { id := "a", function := { name := "nosuch", arguments := "good" } }
          = messageWhenToolError "a")
    ∧ (getTool witnessSkill "query" = some (witnessSkill.tools.get ⟨0, by decide⟩) →
        witnessParse "bad" = Except.error "invalid character" →
        dispatchToolCall witnessParse witnessSkill "sid"
          { id := "b", function := { name := "query", arguments := "bad" } }
          = messageWhenToolErrorWithRetry "invalid character" "sid")
    ∧ (getTool witnessSkill "query" = some (witnessSkill.tools.get ⟨0, by decide⟩) →
        witnessParse "good" = Except.ok [] →
        (witnessSkill.tools.get ⟨0, by decide⟩).exec []
            = ToolExecOutcome.retryableErr "empty input" →
        dispatchToolCall witnessParse witnessSkill "sid"
          { id := "c", function := { name := "query", arguments := "good" } }
          = messageWhenToolErrorWithRetry "empty input" "c")
    ∧ (getTool witnessSkill "query" = some (witnessSkill.tools.get ⟨0, by decide⟩) →
        witnessParse "good" = Except.ok [] →
        (witnessSkill.tools.get ⟨0, by decide⟩).exec []
            = ToolExecOutcome.ignorableErr "empty input" →
        dispatchToolCall witnessParse witnessSkill "sid"
          { id := "c", function := { name := "query", arguments := "good" } }
          = messageWhenToolError "c")
    ∧ (getTool witnessSkill "query" = some (witnessSkill.tools.get ⟨0, by decide⟩) →
        witnessParse "good" = Except.ok [] →
        (witnessSkill.tools.get ⟨0, by decide⟩).exec []
            = ToolExecOutcome.otherErr "empty input" →
        dispatchToolCall witnessParse witnessSkill "sid"
          { id := "c", function := { name := "query", arguments := "good" } }
          = messageWhenToolError "c") := by
  have h := toolDispatch_classification witnessParse witnessSkill "sid"
    [{ id := "a", function := { name := "nosuch", arguments := "good" } },
     { id := "b", function := { name := "query", arguments := "bad" } },
     { id := "c", function := { name := "query", arguments := "good" } }]
    { id := "c", function := { name := "query", arguments := "good" } }
    (witnessSkill.tools.get ⟨0, by decide⟩) "invalid character" [] "empty input"
  have h2 := toolDispatch_classification witnessParse witnessSkill "sid"
    [{ id := "a", function := { name := "nosuch", arguments := "good" } },
     { id := "b", function := { name := "query", arguments := "bad" } },
     { id := "c", function := { name := "query", arguments := "good" } }]
    { id := "a", function := { name := "nosuch", arguments := "good" } }
    (witnessSkill.tools.get ⟨0, by decide⟩) "invalid character" [] "empty input"
  have h3 := toolDispatch_classification witnessParse witnessSkill "sid"
    [{ id := "a", function := { name := "nosuch", arguments := "good" } },
     { id := "b", function := { name := "query", arguments := "bad" } },
     { id := "c", function := { name := "query", arguments := "good" } }]
    { id := "b", function := { name := "query", arguments := "bad" } }
    (witnessSkill.tools.get ⟨0, by decide⟩) "invalid character" [] "empty input"
  exact ⟨h.1, h.2.1, h2.2.2.1, h3.2.2.2.1, h.2.2.2.2.1, h.2.2.2.2.2.1, h.2.2.2.2.2.2⟩

/-- `strings.Contains(err.Error(), "ContentPolicyViolationError")`,
modelled via `String.splitOn`: the substring occurs iff splitting on it
yields more than one piece. -/
def containsCPV (s : String) : Bool :=
  (s.splitOn "ContentPolicyViolationError").length > 1

/-- `Agent.handleLLMError`: emits exactly one `Error` response whose text
is the content-policy message when the error mentions a content-policy
violation and a generic message otherwise. -/
def handleLLMErrorResponse (e : String) : Response :=
  { content :=
      if containsCPV e then
        "Content policy violation! If this was a mistake, please reach out to the support. Consecutive violations may result in a temporary/permanent ban."
      else "Error occurred!",
    type := ResponseType.errorType }

/-- Observable steps of one `Agent.Run` execution: the skill-selection
model call, the synthesis model call of `summarizeMultipleToolResults`
(carrying the message list it is given and whether tools are passed,
which is never the case), and each `Response` sent on the out channel. -/
inductive RunEvent where
  | selectionCall
  | synthesisCall (messages : List ChatMessage) (withTools : Bool)
  | emit (r : Response)
deriving DecidableEq, Repr

/-- Number of skill-selection model calls in a run trace. -/
def countSelection (evs : List RunEvent) : Nat :=
  (evs.filter (fun ev => match ev with
    | RunEvent.selectionCall => true
    | _ => false)).length

/-- Number of synthesis model calls in a run trace. -/
def countSynthesis (evs : List RunEvent) : Nat :=
  (evs.filter (fun ev => match ev with
    | RunEvent.synthesisCall _ _ => true
    | _ => false)).length

/-- The skill-invocation fan-out of `Agent.Run`: tool calls whose function
name matches no skill are skipped (`GetSkill` error), the rest run
`SkillContextRunner` (abstracted by `runner`, keyed by the tool-call id);
a runner error drops the result, a success stores the returned
tool-message text under the tool-call id. -/
def runResults (skills : List String) (runner : String → Except Unit String)
    (tcs : List ToolCall) : List (String × String) :=
  tcs.filterMap (fun tc =>
    if skills.contains tc.function.name then
      match runner tc.id with
      | Except.ok out => some (tc.id, out)
      | Except.error _ => none
    else none)

/-- `Agent.collateSkillCallResults`: with more than one tool call in the
completion, all collected results are appended to the history and one
no-tools synthesis model call produces the answer
(`summarizeMultipleToolResults`); with exactly one tool call the stored
result text is returned directly and no model call is made
(`returnSingleToolResult`, a missing or non-tool result is the
"unexpected message type" error); with no tool call the
"no tool calls found" error is returned. -/
def collateSkillCallResults (hist : List ChatMessage)
    (results : List (String × String)) (synth : Except String String)
    (tcs : List ToolCall) : Except String String × List RunEvent :=
  if 1 < tcs.length then
    (synth, [RunEvent.synthesisCall
      (hist ++ results.map (fun r => ChatMessage.tool r.2 r.1)) false])
  else if tcs.length = 1 then
    match tcs.head? with
    | some tc =>
      match results.lookup tc.id with
      | some out => (Except.ok out, [])
      | none => (Except.error "unexpected message type", [])
    | none => (Except.error "no tool calls found in completion", [])
  else (Except.error "no tool calls found in completion", [])

/-- The body of `Agent.Run` (part_004) between the selection call and the
deferred `End`: report a selection failure as one `Error` response;
otherwise emit the selection's free-text content (if any) as partial
text, stop if no tool calls were requested, and otherwise fan the
(de-duplicated) skill calls out, append the selection message to the
history, collate the results and emit the collated answer (or one
`Error` response if collation failed). -/
def agentRunBodyEvents (skills : List String)
    (choose : Except String SkillCompletion)
    (runner : String → Except Unit String) (synth : Except String String)
    (hist : List ChatMessage) : List RunEvent :=
  match choose with
  | Except.error e => [RunEvent.emit (handleLLMErrorResponse e)]
  | Except.ok msg =>
    (if msg.content ≠ "" then
       [RunEvent.emit { content := msg.content, type := ResponseType.partialText }]
     else []) ++
    match msg.toolCalls.map chooseSkillsProcess with
    | none => []
    | some tcs =>
      let results := runResults skills runner tcs
      let hist1 := hist ++ [ChatMessage.assistant msg.content (some tcs)]
      let c := collateSkillCallResults hist1 results synth tcs
      c.2 ++ (match c.1 with
        | Except.ok text =>
          [RunEvent.emit { content := text, type := ResponseType.partialText }]
        | Except.error e => [RunEvent.emit (handleLLMErrorResponse e)])

/-- `Agent.Run`'s full observable trace: one skill-selection call, the
body, then the deferred terminal `End` response. -/
def agentRunEvents (skills : List String) (choose : Except String SkillCompletion)
    (runner : String → Except Unit String) (synth : Except String String)
    (hist : List ChatMessage) : List RunEvent :=
  RunEvent.selectionCall ::
    (agentRunBodyEvents skills choose runner synth hist ++ [RunEvent.emit endResponse])

/-- Project a trace onto the responses sent to the out channel. -/
def emittedResponses (evs : List RunEvent) : List Response :=
  evs.filterMap (fun ev => match ev with
    | RunEvent.emit r => some r
    | _ => none)

/-- The responses `Agent.Run` sends to its out channel. -/
def agentRunResponses (skills : List String)
    (choose : Except String SkillCompletion)
    (runner : String → Except Unit String) (synth : Except String String)
    (hist : List ChatMessage) : List Response :=
  emittedResponses (agentRunEvents skills choose runner synth hist)

/-- `Session.run`'s forwarding loop: each agent response is sent on to the
caller; after forwarding an `End` response the loop breaks. -/
def forwardUntilEnd : List Response → List Response
  | [] => []
  | r :: rs =>
    if r.type = ResponseType.endType then [r] else r :: forwardUntilEnd rs

/-- The caller-visible output stream of `Session.run` for one run: every
agent response forwarded up to and including the agent's terminal `End`,
followed by the session's own final `End` response. -/
def sessionRunOut (agentResponses : List Response) : List Response :=
  forwardUntilEnd agentResponses ++ [endResponse]

lemma collateSkillCallResults_snd (hist : List ChatMessage)
    (results : List (String × String)) (synth : Except String String)
    (tcs : List ToolCall) :
    (collateSkillCallResults hist results synth tcs).2 = []
    ∨ (collateSkillCallResults hist results synth tcs).2
        = [RunEvent.synthesisCall
            (hist ++ results.map (fun r => ChatMessage.tool r.2 r.1)) false] := by
  unfold collateSkillCallResults
  by_cases h1 : 1 < tcs.length
  · simp [h1]
  · simp only [if_neg h1]
    by_cases h2 : tcs.length = 1
    · simp only [if_pos h2]
      cases hh : tcs.head? with
      | none => simp [hh]
      | some tc =>
        cases hl : results.lookup tc.id with
        | none => simp [hh, hl]
        | some out => simp [hh, hl]
    · simp [h2]

lemma agentRunBodyEvents_emit_not_end (skills : List String)
    (choose : Except String SkillCompletion)
    (runner : String → Except Unit String) (synth : Except String String)
    (hist : List ChatMessage) (r : Response)
    (hr : RunEvent.emit r ∈ agentRunBodyEvents skills choose runner synth hist) :
    r.type ≠ ResponseType.endType := by
  cases choose with
  | error e =>
    simp only [agentRunBodyEvents, List.mem_singleton] at hr
    have : r = handleLLMErrorResponse e := by
      injection hr with h
    rw [this]
    simp [handleLLMErrorResponse]
  | ok msg =>
    simp only [agentRunBodyEvents] at hr
    rcases List.mem_append.mp hr with h | h
    · by_cases hc : msg.content ≠ ""
      · rw [if_pos hc, List.mem_singleton] at h
        have : r = { content := msg.content, type := ResponseType.partialText } := by
          injection h with h
        rw [this]
        simp
      · rw [if_neg hc] at h
        simp at h
    · match hmt : msg.toolCalls.map chooseSkillsProcess with
      | none => rw [hmt] at h; simp at h
      | some tcs =>
        rw [hmt] at h
        simp only at h
        rcases List.mem_append.mp h with h2 | h2
        · rcases collateSkillCallResults_snd
            (hist ++ [ChatMessage.assistant msg.content (some tcs)])
            (runResults skills runner tcs) synth tcs with hs | hs
          · rw [hs] at h2; simp at h2
          · rw [hs] at h2
            simp at h2
        · match hc1 : (collateSkillCallResults
              (hist ++ [ChatMessage.assistant msg.content (some tcs)])
              (runResults skills runner tcs) synth tcs).1 with
          | Except.ok text =>
            rw [hc1, List.mem_singleton] at h2
            have : r = { content := text, type := ResponseType.partialText } := by
              injection h2 with h3
            rw [this]
            simp
          | Except.error e =>
            rw [hc1, List.mem_singleton] at h2
            have : r = handleLLMErrorResponse e := by
              injection h2 with h3
            rw [this]
            simp [handleLLMErrorResponse]

lemma emittedResponses_append (evs₁ evs₂ : List RunEvent) :
    emittedResponses (evs₁ ++ evs₂)
      = emittedResponses evs₁ ++ emittedResponses evs₂ := by
  simp [emittedResponses]

lemma agentRunResponses_decomp (skills : List String)
    (choose : Except String SkillCompletion)
    (runner : String → Except Unit String) (synth : Except String String)
    (hist : List ChatMessage) :
    agentRunResponses skills choose runner synth hist
      = emittedResponses (agentRunBodyEvents skills choose runner synth hist)
          ++ [endResponse]
    ∧ ∀ r ∈ emittedResponses (agentRunBodyEvents skills choose runner synth hist),
        r.type ≠ ResponseType.endType := by
  constructor
  · rw [agentRunResponses, agentRunEvents]
    show emittedResponses (RunEvent.selectionCall ::
      (agentRunBodyEvents skills choose runner synth hist
        ++ [RunEvent.emit endResponse])) = _
    rw [emittedResponses, List.filterMap_cons]
    simp only
    rw [← emittedResponses]
    rw [emittedResponses_append]
    simp [emittedResponses]
  · intro r hrm
    rw [emittedResponses, List.mem_filterMap] at hrm
    obtain ⟨ev, hev, hr⟩ := hrm
    match ev with
    | RunEvent.emit r' =>
      simp at hr
      rw [← hr]
      exact agentRunBodyEvents_emit_not_end skills choose runner synth hist r' hev
    | RunEvent.selectionCall => simp at hr
    | RunEvent.synthesisCall msgs wt => simp at hr

lemma forwardUntilEnd_of_no_end (pre : List Response)
    (hpre : ∀ r ∈ pre, r.type ≠ ResponseType.endType) :
    forwardUntilEnd (pre ++ [endResponse]) = pre ++ [endResponse] := by
  induction pre with
  | nil => simp [forwardUntilEnd, endResponse]
  | cons r rs ih =>
    have hr : r.type ≠ ResponseType.endType := hpre r (List.mem_cons_self r rs)
    simp only [List.cons_append, forwardUntilEnd, if_neg hr]
    have hra : rs.append [endResponse] = rs ++ [endResponse] := rfl
    rw [hra, ih (fun r' hr' => hpre r' (List.mem_cons_of_mem r hr'))]

/-- C1 (amended): the caller-visible stream of one session run through the
agent path consists of a prefix with no `End`-typed responses followed by
exactly two consecutive `End` responses — the agent's terminal `End`
forwarded by the session loop and the session's own final `End` — so the
stream always terminates in `End` on success and failure paths alike, but
the `End` marker is observed twice, not exactly once. -/
theorem session_run_stream_ends (skills : List String)
    (choose : Except String SkillCompletion)
    (runner : String → Except Unit String) (synth : Except String String)
    (hist : List ChatMessage) :
    ∃ pre : List Response,
      sessionRunOut (agentRunResponses skills choose runner synth hist)
          = pre ++ [endResponse, endResponse]
      ∧ (∀ r ∈ pre, r.type ≠ ResponseType.endType)
      ∧ countEnd (sessionRunOut (agentRunResponses skills choose runner synth hist))
          = 2 := by
  obtain ⟨hdec, hnoend⟩ := agentRunResponses_decomp skills choose runner synth hist
  refine ⟨emittedResponses (agentRunBodyEvents skills choose runner synth hist),
    ?_, hnoend, ?_⟩
  · rw [sessionRunOut, hdec,
      forwardUntilEnd_of_no_end _ hnoend]
    simp
  · rw [sessionRunOut, hdec, forwardUntilEnd_of_no_end _ hnoend]
    rw [countEnd]
    rw [List.append_assoc, List.filter_append]
    have h1 : (emittedResponses (agentRunBodyEvents skills choose runner synth hist)).filter
        (fun r => r.type = ResponseType.endType) = [] := by
      rw [List.filter_eq_nil_iff]
      intro r hrm
      simpa using hnoend r hrm
    rw [h1]
    simp [endResponse]

/-- Witness for C1's amended theorem at a concrete run script. -/
theorem session_run_stream_ends_witness :
    ∃ pre : List Response,
      sessionRunOut (agentRunResponses []
          (Except.ok { content := "hi", toolCalls := none })
          (fun _ => Except.error ()) (Except.error "x") [])
          = pre ++ [endResponse, endResponse]
      ∧ (∀ r ∈ pre, r.type ≠ ResponseType.endType)
      ∧ countEnd (sessionRunOut (agentRunResponses []
          (Except.ok { content := "hi", toolCalls := none })
          (fun _ => Except.error ()) (Except.error "x") [])) = 2 :=
  session_run_stream_ends [] (Except.ok { content := "hi", toolCalls := none })
    (fun _ => Except.error ()) (Except.error "x") []

/-- Counterexample to C1 as stated: on a run where the selection model
answers with plain text and no tool calls, the caller observes the agent's
forwarded `End` and then the session's final `End` — two terminal markers,
so `End` is not emitted exactly once. -/
theorem session_run_two_end_markers :
    sessionRunOut (agentRunResponses []
        (Except.ok { content := "hi", toolCalls := none })
        (fun _ => Except.error ()) (Except.error "x") [])
      = [{ content := "hi", type := ResponseType.partialText },
         endResponse, endResponse]
    ∧ countEnd (sessionRunOut (agentRunResponses []
        (Except.ok { content := "hi", toolCalls := none })
        (fun _ => Except.error ()) (Except.error "x") [])) = 2
    ∧ ¬ countEnd (sessionRunOut (agentRunResponses []
        (Except.ok { content := "hi", toolCalls := none })
        (fun _ => Except.error ()) (Except.error "x") [])) = 1 := by
  refine ⟨?_, ?_, ?_⟩ <;> decide

lemma agentRunBodyEvents_no_selection (skills : List String)
    (choose : Except String SkillCompletion)
    (runner : String → Except Unit String) (synth : Except String String)
    (hist : List ChatMessage) :
    RunEvent.selectionCall ∉ agentRunBodyEvents skills choose runner synth hist := by
  intro hmem
  cases choose with
  | error e => simp [agentRunBodyEvents] at hmem
  | ok msg =>
    simp only [agentRunBodyEvents] at hmem
    rcases List.mem_append.mp hmem with h | h
    · by_cases hc : msg.content ≠ ""
      · rw [if_pos hc] at h
        simp at h
      · rw [if_neg hc] at h
        simp at h
    · match hmt : msg.toolCalls.map chooseSkillsProcess with
      | none => rw [hmt] at h; simp at h
      | some tcs =>
        rw [hmt] at h
        simp only at h
        rcases List.mem_append.mp h with h2 | h2
        · rcases collateSkillCallResults_snd
            (hist ++ [ChatMessage.assistant msg.content (some tcs)])
            (runResults skills runner tcs) synth tcs with hs | hs
          · rw [hs] at h2; simp at h2
          · rw [hs] at h2; simp at h2
        · match hc1 : (collateSkillCallResults
              (hist ++ [ChatMessage.assistant msg.content (some tcs)])
              (runResults skills runner tcs) synth tcs).1 with
          | Except.ok text => rw [hc1] at h2; simp at h2
          | Except.error e => rw [hc1] at h2; simp at h2

/-- C4 (amended): `Agent.Run` performs exactly one decision iteration per
run — a single skill-selection model call — regardless of whether the
model's selections contain a stop/termination signal; there is no
top-level loop, no termination flag, and no further decision iteration
after the merge step. -/
theorem agentRun_single_decision_iteration (skills : List String)
    (choose : Except String SkillCompletion)
    (runner : String → Except Unit String) (synth : Except String String)
    (hist : List ChatMessage) :
    countSelection (agentRunEvents skills choose runner synth hist) = 1 := by
  rw [countSelection, agentRunEvents]
  rw [List.filter_cons]
  simp only [decide_True, if_pos rfl]
  rw [List.filter_append]
  have h1 : (agentRunBodyEvents skills choose runner synth hist).filter
      (fun ev => match ev with
        | RunEvent.selectionCall => true
        | _ => false) = [] := by
    rw [List.filter_eq_nil_iff]
    intro ev hev hsel
    match ev with
    | RunEvent.selectionCall =>
      exact agentRunBodyEvents_no_selection skills choose runner synth hist hev
    | RunEvent.synthesisCall msgs wt => simp at hsel
    | RunEvent.emit r => simp at hsel
  rw [h1]
  simp

/-- A concrete selection completion for the C4 counterexample: one skill
call, no stop/termination signal. -/
def oneLookupSelection : SkillCompletion :=
  { content := "",
    toolCalls := some [{ id := "1",
                         function := { name := "lookup", arguments := "" } }] }

/-- Counterexample to C4 as stated: a run whose selection requests one
skill call and sets no stop/termination signal still performs exactly one
decision iteration — the agent does not invoke the selection model again. -/
theorem agentRun_no_second_iteration :
    (∀ tc ∈ (oneLookupSelection.toolCalls.getD []), tc.function.name ≠ "stop")
    ∧ countSelection (agentRunEvents ["lookup"] (Except.ok oneLookupSelection)
        (fun _ => Except.ok "answer") (Except.ok "synthesized") []) = 1
    ∧ ¬ 2 ≤ countSelection (agentRunEvents ["lookup"] (Except.ok oneLookupSelection)
        (fun _ => Except.ok "answer") (Except.ok "synthesized") []) := by
  refine ⟨?_, ?_, ?_⟩ <;> decide

lemma collate_single_eq (hist : List ChatMessage)
    (results : List (String × String)) (synth : Except String String)
    (tc : ToolCall) (out : String) (h : results.lookup tc.id = some out) :
    collateSkillCallResults hist results synth [tc] = (Except.ok out, []) := by
  rw [collateSkillCallResults]
  simp [h]

lemma collate_multi_eq (hist : List ChatMessage)
    (results : List (String × String)) (synth : Except String String)
    (tcs : List ToolCall) (h : 1 < tcs.length) :
    collateSkillCallResults hist results synth tcs
      = (synth, [RunEvent.synthesisCall
          (hist ++ results.map (fun r => ChatMessage.tool r.2 r.1)) false]) := by
  rw [collateSkillCallResults, if_pos h]

/-- C5 (amended): the collation step branches on the number of tool calls
in the selection completion (not on the number of skills actually
invoked): with exactly one tool call whose result was stored, the stored
raw tool-result text is the final answer and no synthesis model call
happens; with more than one tool call, exactly one synthesis model call
is made, with no tools, over the history extended with every accumulated
skill result. -/
theorem collate_single_direct_multi_synthesis (skills : List String)
    (runner : String → Except Unit String) (hist : List ChatMessage)
    (results : List (String × String)) (synth : Except String String)
    (tc : ToolCall) (tcs : List ToolCall) (msg : SkillCompletion) (out : String)
    (hone : results.lookup tc.id = some out) (hmany : 1 < tcs.length) :
    collateSkillCallResults hist results synth [tc] = (Except.ok out, [])
    ∧ collateSkillCallResults hist results synth tcs
        = (synth, [RunEvent.synthesisCall
            (hist ++ results.map (fun r => ChatMessage.tool r.2 r.1)) false])
    ∧ (∀ r ∈ results, ChatMessage.tool r.2 r.1
        ∈ hist ++ results.map (fun r => ChatMessage.tool r.2 r.1))
    ∧ (msg.toolCalls = some [tc] →
        runResults skills runner [tc] = results →
        countSynthesis (agentRunEvents skills (Except.ok msg) runner synth hist) = 0
        ∧ RunEvent.emit { content := out, type := ResponseType.partialText }
            ∈ agentRunEvents skills (Except.ok msg) runner synth hist)
    ∧ (msg.toolCalls = some tcs → chooseSkillsProcess tcs = tcs →
        countSynthesis (agentRunEvents skills (Except.ok msg) runner synth hist)
          = 1) := by
  refine ⟨collate_single_eq hist results synth tc out hone,
    collate_multi_eq hist results synth tcs hmany, ?_, ?_, ?_⟩
  · intro r hr
    rw [List.mem_append]
    exact Or.inr (List.mem_map_of_mem _ hr)
  · intro hm hres
    have hproc : chooseSkillsProcess [tc] = [tc] := by
      rw [chooseSkillsProcess]
      simp
    have hcol := collate_single_eq
      (hist ++ [ChatMessage.assistant msg.content (some [tc])])
      results synth tc out hone
    constructor
    · rw [countSynthesis, agentRunEvents, agentRunBodyEvents]
      simp only [hm, Option.map_some', hproc, hres, hcol]
      by_cases hcont : msg.content ≠ "" <;>
        simp [hcont, countSynthesis, List.filter_append, List.filter_cons]
    · rw [agentRunEvents, agentRunBodyEvents]
      simp only [hm, Option.map_some', hproc, hres, hcol]
      by_cases hcont : msg.content ≠ "" <;> simp [hcont]
  · intro hm hdedup
    have hcol := collate_multi_eq
      (hist ++ [ChatMessage.assistant msg.content (some tcs)])
      (runResults skills runner tcs) synth tcs hmany
    rw [countSynthesis, agentRunEvents, agentRunBodyEvents]
    simp only [hm, Option.map_some', hdedup, hcol]
    cases synth with
    | ok text =>
      by_cases hcont : msg.content ≠ "" <;>
        simp [hcont, List.filter_append, List.filter_cons]
    | error e =>
      by_cases hcont : msg.content ≠ "" <;>
        simp [hcont, List.filter_append, List.filter_cons]

/-- A selection with two tool calls, the second naming no existing skill,
for the C5 counterexample. -/
def twoCallSelection : SkillCompletion :=
  { content := "",
    toolCalls := some
      [{ id := "1", function := { name := "a", arguments := "" } },
       { id := "2", function := { name := "b", arguments := "" } }] }

/-- Counterexample to C5 as stated: with a selection of two tool calls of
which only one names an existing skill, exactly one skill is invoked
(one collected result), yet the run still makes a synthesis model call
and emits its output — the code branches on the number of tool calls,
not on the number of skills invoked. -/
theorem collate_single_invoked_still_synthesizes :
    (runResults ["a"] (fun _ => Except.ok "raw-result")
        (twoCallSelection.toolCalls.getD [])).length = 1
    ∧ countSynthesis (agentRunEvents ["a"] (Except.ok twoCallSelection)
        (fun _ => Except.ok "raw-result") (Except.ok "combined") []) = 1
    ∧ ¬ countSynthesis (agentRunEvents ["a"] (Except.ok twoCallSelection)
        (fun _ => Except.ok "raw-result") (Except.ok "combined") []) = 0
    ∧ RunEvent.emit { content := "combined", type := ResponseType.partialText }
        ∈ agentRunEvents ["a"] (Except.ok twoCallSelection)
            (fun _ => Except.ok "raw-result") (Except.ok "combined") []
    ∧ ¬ RunEvent.emit { content := "raw-result", type := ResponseType.partialText }
        ∈ agentRunEvents ["a"] (Except.ok twoCallSelection)
            (fun _ => Except.ok "raw-result") (Except.ok "combined") [] := by
  refine ⟨?_, ?_, ?_, ?_, ?_⟩ <;> decide

/-- A selection with a single tool call naming skill "a", for the C5
witness. -/
def oneCallSelection : SkillCompletion :=
  { content := "",
    toolCalls := some [{ id := "1", function := { name := "a", arguments := "" } }] }

/-- Witness for C5's amended theorem at concrete inputs: one stored result
under id "1", a two-call list for the multi branch, and a one-call
selection completion. -/
theorem collate_single_direct_multi_synthesis_witness :
    List.lookup "1" [("1", "raw-result")] = some "raw-result"
    ∧ (1 : Nat) < (twoCallSelection.toolCalls.getD []).length
    ∧ collateSkillCallResults [] [("1", "raw-result")] (Except.ok "combined")
          [{ id := "1", function := { name := "a", arguments := "" } }]
          = (Except.ok "raw-result", []) := by
  refine ⟨by decide, by decide, ?_⟩
  exact (collate_single_direct_multi_synthesis ["a"]
    (fun _ => Except.ok "raw-result") [] [("1", "raw-result")]
    (Except.ok "combined")
    { id := "1", function := { name := "a", arguments := "" } }
    (twoCallSelection.toolCalls.getD []) oneCallSelection
    "raw-result" (by decide) (by decide)).1

/-- A heap of `MessageList` backing sequences: each allocated list lives in
a cell addressed by a `Nat` reference; `next` is the next fresh address.
Go pointer aliasing is made explicit so that the non-aliasing contract of
`Clone` is statable. -/
structure MsgHeap where
  cells : Nat → List ChatMessage
  next : Nat

/-- `MessageList.Clone`: allocate a fresh cell holding a copy of the source
cell's entries (`append([]..., ml.Messages...)` builds a new backing
array); returns the updated heap and the new reference. -/
def heapClone (h : MsgHeap) (r : Nat) : MsgHeap × Nat :=
  ({ cells := fun i => if i = h.next then h.cells r else h.cells i,
     next := h.next + 1 }, h.next)

/-- `MessageList.Add`: append entries to the referenced cell in place. -/
def heapAdd (h : MsgHeap) (r : Nat) (m : ChatMessage) : MsgHeap :=
  { h with cells := fun i => if i = r then h.cells i ++ [m] else h.cells i }

/-- `MessageList.ReplaceAt`: replace the entry at an index of the
referenced cell in place (an out-of-range index leaves the cell unchanged,
mirroring the error return). -/
def heapReplaceAt (h : MsgHeap) (r : Nat) (idx : Nat) (m : ChatMessage) :
    MsgHeap :=
  { h with cells := fun i => if i = r then (h.cells i).set idx m else h.cells i }

/-- C8: `Clone` returns a history with equal entries in a fresh cell, and
the fresh cell is not aliased with the source: appending to or replacing
in the clone leaves the original's entries unchanged, and mutating the
original leaves the clone's entries unchanged. -/
theorem clone_no_aliasing (h : MsgHeap) (r : Nat) (m : ChatMessage)
    (idx : Nat) (hr : r < h.next) :
    (heapClone h r).1.cells (heapClone h r).2 = h.cells r
    ∧ (heapClone h r).1.cells r = h.cells r
    ∧ (heapClone h r).2 ≠ r
    ∧ (heapAdd (heapClone h r).1 (heapClone h r).2 m).cells r = h.cells r
    ∧ (heapReplaceAt (heapClone h r).1 (heapClone h r).2 idx m).cells r
        = h.cells r
    ∧ (heapAdd (heapClone h r).1 r m).cells (heapClone h r).2 = h.cells r
    ∧ (heapReplaceAt (heapClone h r).1 r idx m).cells (heapClone h r).2
        = h.cells r := by
  have hne : h.next ≠ r := Nat.ne_of_gt hr
  refine ⟨?_, ?_, hne, ?_, ?_, ?_, ?_⟩ <;>
    simp [heapClone, heapAdd, heapReplaceAt, hne, Ne.symm hne]

/-- Witness for C8 at a concrete one-cell heap. -/
theorem clone_no_aliasing_witness :
    (0 : Nat) < 1
    ∧ ((heapClone { cells := fun _ => [ChatMessage.user "hi"], next := 1 } 0).1.cells
        (heapClone { cells := fun _ => [ChatMessage.user "hi"], next := 1 } 0).2
        = [ChatMessage.user "hi"]
      ∧ (heapAdd (heapClone { cells := fun _ => [ChatMessage.user "hi"], next := 1 } 0).1
          (heapClone { cells := fun _ => [ChatMessage.user "hi"], next := 1 } 0).2
          (ChatMessage.user "bye")).cells 0
        = [ChatMessage.user "hi"]) := by
  have h := clone_no_aliasing
    { cells := fun _ => [ChatMessage.user "hi"], next := 1 } 0
    (ChatMessage.user "bye") 0 (by decide)
  exact ⟨by decide, h.1, h.2.2.2.1⟩

mutual
/-- A memory value: a string leaf (`StringType`) or a nested block
(`BlockType`). -/
inductive MemoryValue where
  | str (s : String) : MemoryValue
  | block (b : MemoryBlock) : MemoryValue
/-- A `MemoryBlock`: the `Items` map (modelled as an association list keyed
by the insertion logic below, so lookup behaves like the Go map) together
with the separate `keys` slice tracking insertion order. -/
inductive MemoryBlock where
  | mk (items : List (String × MemoryValue)) (keys : List String) : MemoryBlock
end

/-- The `Items` map of a block. -/
def MemoryBlock.items : MemoryBlock → List (String × MemoryValue)
  | MemoryBlock.mk i _ => i

/-- The insertion-order `keys` slice of a block. -/
def MemoryBlock.keys : MemoryBlock → List String
  | MemoryBlock.mk _ k => k

/-- `NewMemoryBlock`: empty map, empty key order. -/
def NewMemoryBlock : MemoryBlock := MemoryBlock.mk [] []

/-- Map update: replace the binding for `k` when present, append it
otherwise (association-list model of `mb.Items[key] = value`). -/
def insertItem : List (String × MemoryValue) → String → MemoryValue →
    List (String × MemoryValue)
  | [], k, v => [(k, v)]
  | (k₁, v₁) :: rest, k, v =>
    if k₁ = k then (k, v) :: rest else (k₁, v₁) :: insertItem rest k v

/-- `MemoryBlock.AddString`: extend the key order only when the key is new,
then store the string value. -/
def MemoryBlock.addString : MemoryBlock → String → String → MemoryBlock
  | MemoryBlock.mk items keys, k, v =>
    MemoryBlock.mk (insertItem items k (MemoryValue.str v))
      (if (items.lookup k).isSome then keys else keys ++ [k])

/-- `MemoryBlock.AddBlock`: extend the key order only when the key is new,
then store the nested block. -/
def MemoryBlock.addBlock : MemoryBlock → String → MemoryBlock → MemoryBlock
  | MemoryBlock.mk items keys, k, v =>
    MemoryBlock.mk (insertItem items k (MemoryValue.block v))
      (if (items.lookup k).isSome then keys else keys ++ [k])

/-- `MemoryBlock.Delete`: when the key exists, remove it from the map and
remove its first occurrence from the key order, reporting `true`;
otherwise leave the block unchanged and report `false`. -/
def MemoryBlock.deleteKey : MemoryBlock → String → MemoryBlock × Bool
  | MemoryBlock.mk items keys, k =>
    if (items.lookup k).isSome then
      (MemoryBlock.mk (items.filter (fun p => p.1 ≠ k)) (keys.erase k), true)
    else (MemoryBlock.mk items keys, false)

/-- `MemoryBlock.Exists`. -/
def MemoryBlock.existsKey (b : MemoryBlock) (k : String) : Bool :=
  (b.items.lookup k).isSome

mutual
/-- Size of a value, for the serializer's termination measure. -/
def MemoryValue.msize : MemoryValue → Nat
  | MemoryValue.str _ => 1
  | MemoryValue.block b => b.msize + 1
/-- Size of a block. -/
def MemoryBlock.msize : MemoryBlock → Nat
  | MemoryBlock.mk items _ => itemsSize items + 1
/-- Size of an item list. -/
def itemsSize : List (String × MemoryValue) → Nat
  | [] => 0
  | (_, v) :: rest => v.msize + itemsSize rest + 1
end

/-- Go map indexing with the zero value: a missing key reads as the zero
`MemoryValue`, which has `StringType` and empty string. -/
def lookupD (items : List (String × MemoryValue)) (k : String) : MemoryValue :=
  (items.lookup k).getD (MemoryValue.str "")

/-- `strings.Repeat("  ", level)`. -/
def indentStr : Nat → String
  | 0 => ""
  | n + 1 => "  " ++ indentStr n

lemma lookup_block_msize (items : List (String × MemoryValue)) (k : String)
    (sub : MemoryBlock) (h : items.lookup k = some (MemoryValue.block sub)) :
    sub.msize < itemsSize items := by
  induction items with
  | nil => simp [List.lookup] at h
  | cons p rest ih =>
    match p with
    | (k₁, v₁) =>
      rw [List.lookup] at h
      cases hk : (k == k₁) with
      | true =>
        rw [hk] at h
        simp only at h
        injection h with h
        rw [h, itemsSize, MemoryValue.msize]
        omega
      | false =>
        rw [hk] at h
        simp only at h
        have := ih h
        rw [itemsSize]
        omega

lemma lookupD_block (items : List (String × MemoryValue)) (k : String)
    (sub : MemoryBlock) (h : lookupD items k = MemoryValue.block sub) :
    items.lookup k = some (MemoryValue.block sub) := by
  rw [lookupD] at h
  cases hl : items.lookup k with
  | none => rw [hl] at h; exact absurd h (by simp)
  | some v =>
    rw [hl] at h
    simp only [Option.getD_some] at h
    rw [h]

lemma MemoryBlock.msize_eq (b : MemoryBlock) :
    b.msize = itemsSize b.items + 1 := by
  cases b with
  | mk items keys => rfl

mutual
/-- `MemoryBlock.parseWithIndent`: open tag at the current indentation,
render each key of the insertion order, close tag. -/
def parseWithIndent (b : MemoryBlock) (level : Nat) (tagName : String) :
    String :=
  indentStr level ++ "<" ++ tagName ++ ">\n"
    ++ parseBody b.items b.keys level
    ++ indentStr level ++ "</" ++ tagName ++ ">\n"
termination_by (b.msize + 1, 0)
decreasing_by
  rw [MemoryBlock.msize_eq b]
  exact Prod.Lex.left _ _ (by omega)
/-- The body loop of `parseWithIndent`: for each key in insertion order,
a string value renders as an indented `key: value` line one level deeper,
and a block value renders recursively as a tagged section one level
deeper named after the key; a key missing from the map reads as the zero
value (empty string leaf). -/
def parseBody (items : List (String × MemoryValue)) (ks : List String)
    (level : Nat) : String :=
  match ks with
  | [] => ""
  | k :: rest =>
    (match h : lookupD items k with
     | MemoryValue.str s => indentStr (level + 1) ++ k ++ ": " ++ s ++ "\n"
     | MemoryValue.block sub => parseWithIndent sub (level + 1) k)
    ++ parseBody items rest level
termination_by (itemsSize items + 1, ks.length + 1)
decreasing_by
  · simp_wf
    rw [MemoryBlock.msize_eq sub]
    have hlt := lookup_block_msize items k sub (lookupD_block items k sub h)
    exact Prod.Lex.left _ _ (by
      rw [MemoryBlock.msize_eq sub] at hlt
      omega)
  · simp_wf
    exact Prod.Lex.right _ (by omega)
end

/-- `MemoryBlock.Parse`: serialize the whole block under the root tag
"Memory" at indentation level 0. -/
def MemoryBlock.Parse (b : MemoryBlock) : String :=
  parseWithIndent b 0 "Memory"

/-- Concatenation of rendered lines, used to state what the serializer
produces. -/
def concatStrings : List String → String
  | [] => ""
  | s :: rest => s ++ concatStrings rest

/-- Fold a list of string insertions over a block, in order. -/
def addAllStrings (b : MemoryBlock) (ps : List (String × String)) :
    MemoryBlock :=
  ps.foldl (fun acc p => acc.addString p.1 p.2) b

lemma lookup_append_of_none (l₁ l₂ : List (String × MemoryValue)) (k : String)
    (h : l₁.lookup k = none) : (l₁ ++ l₂).lookup k = l₂.lookup k := by
  induction l₁ with
  | nil => simp
  | cons p rest ih =>
    match p with
    | (k₁, v₁) =>
      rw [List.lookup] at h
      rw [List.cons_append, List.lookup]
      cases hk : (k == k₁) with
      | true => rw [hk] at h; simp at h
      | false =>
        rw [hk] at h
        simp only at h ⊢
        exact ih h

lemma lookup_singleton_ne (k a : String) (v : MemoryValue) (h : k ≠ a) :
    ([(a, v)] : List (String × MemoryValue)).lookup k = none := by
  rw [List.lookup]
  have : (k == a) = false := beq_false_of_ne h
  rw [this]
  rfl

lemma insertItem_absent (items : List (String × MemoryValue)) (k : String)
    (v : MemoryValue) (h : items.lookup k = none) :
    insertItem items k v = items ++ [(k, v)] := by
  induction items with
  | nil => rfl
  | cons p rest ih =>
    match p with
    | (k₁, v₁) =>
      rw [List.lookup] at h
      rw [insertItem]
      cases hk : (k == k₁) with
      | true => rw [hk] at h; simp at h
      | false =>
        rw [hk] at h
        simp only at h
        have hne : k₁ ≠ k := fun he => by
          rw [he] at hk
          simp at hk
        rw [if_neg hne, List.cons_append, ih h]

lemma addString_fresh (items : List (String × MemoryValue))
    (keys : List String) (k v : String) (h : items.lookup k = none) :
    MemoryBlock.addString (MemoryBlock.mk items keys) k v
      = MemoryBlock.mk (items ++ [(k, MemoryValue.str v)]) (keys ++ [k]) := by
  rw [MemoryBlock.addString, insertItem_absent items k _ h, h]
  rfl

lemma addAllStrings_structure (ps : List (String × String)) :
    ∀ (items : List (String × MemoryValue)) (keys : List String),
      (∀ p ∈ ps, items.lookup p.1 = none) → (ps.map Prod.fst).Nodup →
      addAllStrings (MemoryBlock.mk items keys) ps
        = MemoryBlock.mk
            (items ++ ps.map (fun p => (p.1, MemoryValue.str p.2)))
            (keys ++ ps.map Prod.fst) := by
  induction ps with
  | nil => intro items keys _ _; simp [addAllStrings]
  | cons p rest ih =>
    intro items keys hfresh hnodup
    have hp : items.lookup p.1 = none := hfresh p (List.mem_cons_self p rest)
    have hstep : addAllStrings (MemoryBlock.mk items keys) (p :: rest)
        = addAllStrings
            (MemoryBlock.mk (items ++ [(p.1, MemoryValue.str p.2)])
              (keys ++ [p.1])) rest := by
      rw [addAllStrings, List.foldl_cons]
      rw [show ((MemoryBlock.mk items keys).addString p.1 p.2)
          = MemoryBlock.mk (items ++ [(p.1, MemoryValue.str p.2)]) (keys ++ [p.1])
        from addString_fresh items keys p.1 p.2 hp]
      rfl
    rw [hstep]
    have hnd := hnodup
    rw [List.map_cons, List.nodup_cons] at hnd
    have hfresh' : ∀ q ∈ rest,
        (items ++ [(p.1, MemoryValue.str p.2)]).lookup q.1 = none := by
      intro q hq
      have h1 : items.lookup q.1 = none :=
        hfresh q (List.mem_cons_of_mem p hq)
      rw [lookup_append_of_none items _ q.1 h1]
      refine lookup_singleton_ne q.1 p.1 _ ?_
      intro he
      exact hnd.1 (he ▸ List.mem_map_of_mem Prod.fst hq)
    rw [ih _ _ hfresh' hnd.2]
    simp [List.append_assoc]

lemma lookup_map_str (ps : List (String × String)) (p : String × String)
    (hnodup : (ps.map Prod.fst).Nodup) (hp : p ∈ ps) :
    (ps.map (fun q => (q.1, MemoryValue.str q.2))).lookup p.1
      = some (MemoryValue.str p.2) := by
  induction ps with
  | nil => simp at hp
  | cons q rest ih =>
    rw [List.map_cons, List.nodup_cons] at hnodup
    rcases List.mem_cons.mp hp with h | h
    · rw [h, List.map_cons, List.lookup]
      simp
    · rw [List.map_cons, List.lookup]
      have hne : p.1 ≠ q.1 := by
        intro he
        exact hnodup.1 (he ▸ List.mem_map_of_mem Prod.fst h)
      have : (p.1 == q.1) = false := beq_false_of_ne hne
      rw [this]
      exact ih hnodup.2 h

lemma parseBody_nil (items : List (String × MemoryValue)) (level : Nat) :
    parseBody items [] level = "" := by
  rw [parseBody]

lemma parseBody_cons (items : List (String × MemoryValue)) (k : String)
    (rest : List String) (level : Nat) :
    parseBody items (k :: rest) level
      = (match lookupD items k with
         | MemoryValue.str s => indentStr (level + 1) ++ k ++ ": " ++ s ++ "\n"
         | MemoryValue.block sub => parseWithIndent sub (level + 1) k)
        ++ parseBody items rest level := by
  rw [parseBody]
  congr 1
  split
  · rename_i s hs
    rw [hs]
  · rename_i sub hsub
    rw [hsub]

lemma parseBody_cons_str (items : List (String × MemoryValue)) (k : String)
    (rest : List String) (level : Nat) (s : String)
    (h : lookupD items k = MemoryValue.str s) :
    parseBody items (k :: rest) level
      = (indentStr (level + 1) ++ k ++ ": " ++ s ++ "\n")
        ++ parseBody items rest level := by
  rw [parseBody_cons, h]

lemma parseBody_cons_block (items : List (String × MemoryValue)) (k : String)
    (rest : List String) (level : Nat) (sub : MemoryBlock)
    (h : lookupD items k = MemoryValue.block sub) :
    parseBody items (k :: rest) level
      = parseWithIndent sub (level + 1) k ++ parseBody items rest level := by
  rw [parseBody_cons, h]

lemma parseWithIndent_eq (b : MemoryBlock) (level : Nat) (tag : String) :
    parseWithIndent b level tag
      = indentStr level ++ "<" ++ tag ++ ">\n"
        ++ parseBody b.items b.keys level
        ++ indentStr level ++ "</" ++ tag ++ ">\n" := by
  rw [parseWithIndent]

lemma parseBody_append (items : List (String × MemoryValue))
    (ks₁ ks₂ : List String) (level : Nat) :
    parseBody items (ks₁ ++ ks₂) level
      = parseBody items ks₁ level ++ parseBody items ks₂ level := by
  induction ks₁ with
  | nil => rw [List.nil_append, parseBody_nil, String.empty_append]
  | cons k rest ih =>
    rw [List.cons_append, parseBody_cons, parseBody_cons, ih,
      ← String.append_assoc]

lemma parseBody_all_str (items : List (String × MemoryValue))
    (ps : List (String × String)) (level : Nat)
    (hlook : ∀ p ∈ ps, items.lookup p.1 = some (MemoryValue.str p.2)) :
    parseBody items (ps.map Prod.fst) level
      = concatStrings (ps.map
          (fun p => indentStr (level + 1) ++ p.1 ++ ": " ++ p.2 ++ "\n")) := by
  induction ps with
  | nil => rw [List.map_nil, parseBody_nil, List.map_nil, concatStrings]
  | cons p rest ih =>
    rw [List.map_cons, List.map_cons, concatStrings]
    have hD : lookupD items p.1 = MemoryValue.str p.2 := by
      rw [lookupD, hlook p (List.mem_cons_self p rest)]
      rfl
    rw [parseBody_cons_str items p.1 _ level p.2 hD]
    rw [ih (fun q hq => hlook q (List.mem_cons_of_mem p hq))]

/-- C7: `MemoryBlock.Parse` renders entries in exactly insertion order —
serializing keys added A,B,C yields their lines in order A,B,C,
independent of any map iteration order (the key slice drives the loop);
the body concatenates per-key renderings in key order, a string leaf
renders as an indented `key: value` line one level deeper than its parent
tag, a nested block renders recursively as an open/close tag named after
its key one level deeper, and a block renders as open tag, body, close
tag at its own indentation. -/
theorem memoryBlock_parse_insertion_order (ps : List (String × String))
    (items : List (String × MemoryValue)) (b : MemoryBlock)
    (ks₁ ks₂ : List String) (k tag s : String) (sub : MemoryBlock)
    (level : Nat) (hnodup : (ps.map Prod.fst).Nodup) :
    MemoryBlock.Parse (addAllStrings NewMemoryBlock ps)
      = "<Memory>\n"
        ++ concatStrings (ps.map (fun p => "  " ++ p.1 ++ ": " ++ p.2 ++ "\n"))
        ++ "</Memory>\n"
    ∧ parseBody items (ks₁ ++ ks₂) level
        = parseBody items ks₁ level ++ parseBody items ks₂ level
    ∧ (lookupD items k = MemoryValue.str s →
        parseBody items [k] level
          = indentStr (level + 1) ++ k ++ ": " ++ s ++ "\n")
    ∧ (lookupD items k = MemoryValue.block sub →
        parseBody items [k] level = parseWithIndent sub (level + 1) k)
    ∧ parseWithIndent b level tag
        = indentStr level ++ "<" ++ tag ++ ">\n"
          ++ parseBody b.items b.keys level
          ++ indentStr level ++ "</" ++ tag ++ ">\n" := by
  refine ⟨?_, parseBody_append items ks₁ ks₂ level, ?_, ?_,
    parseWithIndent_eq b level tag⟩
  · have hfresh : ∀ p ∈ ps,
        ([] : List (String × MemoryValue)).lookup p.1 = none := by
      intro p _
      rfl
    have hstruct := addAllStrings_structure ps [] [] hfresh hnodup
    rw [MemoryBlock.Parse, show NewMemoryBlock = MemoryBlock.mk [] [] from rfl,
      hstruct, List.nil_append, List.nil_append, parseWithIndent_eq]
    rw [show (MemoryBlock.mk (ps.map fun p => (p.1, MemoryValue.str p.2))
          (ps.map Prod.fst)).items
        = ps.map (fun p => (p.1, MemoryValue.str p.2)) from rfl]
    rw [show (MemoryBlock.mk (ps.map fun p => (p.1, MemoryValue.str p.2))
          (ps.map Prod.fst)).keys
        = ps.map Prod.fst from rfl]
    rw [parseBody_all_str _ ps 0 (fun p hp => lookup_map_str ps p hnodup hp)]
    have hind : indentStr (0 + 1) = "  " := rfl
    simp only [hind]
    have h0 : indentStr 0 = "" := rfl
    rw [h0, String.empty_append, String.append_empty]
    have hopen : ("<" : String) ++ "Memory" ++ ">\n" = "<Memory>\n" := rfl
    rw [hopen]
    rw [String.append_assoc
      ("<Memory>\n" ++ concatStrings
        (ps.map fun p => "  " ++ p.1 ++ ": " ++ p.2 ++ "\n")) "</" "Memory"]
    rw [String.append_assoc
      ("<Memory>\n" ++ concatStrings
        (ps.map fun p => "  " ++ p.1 ++ ": " ++ p.2 ++ "\n"))
      ("</" ++ "Memory") ">\n"]
    rw [show ("</" : String) ++ "Memory" ++ ">\n" = "</Memory>\n" from rfl]
  · intro h
    rw [parseBody_cons_str items k [] level s h, parseBody_nil,
      String.append_empty]
  · intro h
    rw [parseBody_cons_block items k [] level sub h, parseBody_nil,
      String.append_empty]

/-- The insertion list A,B,C for the C7 witness. -/
def abcInsertions : List (String × String) := [("A", "1"), ("B", "2"), ("C", "3")]

/-- Witness for C7: keys A,B,C are pairwise distinct and the built block
serializes its lines in insertion order A,B,C. -/
theorem memoryBlock_parse_insertion_order_witness :
    (abcInsertions.map Prod.fst).Nodup
    ∧ MemoryBlock.Parse (addAllStrings NewMemoryBlock abcInsertions)
        = "<Memory>\n"
          ++ concatStrings (abcInsertions.map
              (fun p => "  " ++ p.1 ++ ": " ++ p.2 ++ "\n"))
          ++ "</Memory>\n" :=
  ⟨by decide,
    (memoryBlock_parse_insertion_order abcInsertions [] NewMemoryBlock [] []
      "" "" "" NewMemoryBlock 0 (by decide)).1⟩

/-- Mutating operations of a `MemoryBlock`. -/
inductive MemOp where
  | addS (k v : String)
  | addB (k : String) (nb : MemoryBlock)
  | del (k : String)

/-- Apply one operation. -/
def applyOp (b : MemoryBlock) : MemOp → MemoryBlock
  | MemOp.addS k v => b.addString k v
  | MemOp.addB k nb => b.addBlock k nb
  | MemOp.del k => (b.deleteKey k).1

/-- Apply a sequence of operations, oldest first. -/
def applyOps (b : MemoryBlock) (ops : List MemOp) : MemoryBlock :=
  ops.foldl applyOp b

/-- The structural invariant tying the key-order slice to the map: the
ordered key list is duplicate-free and holds exactly the keys present in
the `Items` map. -/
def MemWf (b : MemoryBlock) : Prop :=
  b.keys.Nodup ∧ ∀ k, k ∈ b.keys ↔ (b.items.lookup k).isSome = true

lemma lookup_insertItem (items : List (String × MemoryValue))
    (k k' : String) (v : MemoryValue) :
    (insertItem items k v).lookup k'
      = if k' = k then some v else items.lookup k' := by
  induction items with
  | nil =>
    rw [insertItem]
    by_cases h : k' = k
    · subst h
      simp [List.lookup]
    · simp [List.lookup, beq_false_of_ne h, h]
  | cons p rest ih =>
    match p with
    | (k₁, v₁) =>
      rw [insertItem]
      by_cases h1 : k₁ = k
      · rw [if_pos h1]
        by_cases h : k' = k
        · subst h
          simp [List.lookup]
        · have hne : ¬ k' = k₁ := fun he => h (he.trans h1)
          simp [List.lookup, beq_false_of_ne h, beq_false_of_ne hne, h]
      · rw [if_neg h1]
        by_cases h2 : k' = k₁
        · subst h2
          simp [List.lookup, h1]
        · simp [List.lookup, beq_false_of_ne h2, ih]

lemma lookup_filter_ne (items : List (String × MemoryValue)) (k k' : String) :
    ((items.filter (fun p => p.1 ≠ k)).lookup k')
      = if k' = k then none else items.lookup k' := by
  induction items with
  | nil => by_cases h : k' = k <;> simp [h]
  | cons p rest ih =>
    match p with
    | (k₁, v₁) =>
      rw [List.filter_cons]
      by_cases h1 : k₁ = k
      · subst h1
        rw [if_neg (by simp)]
        rw [ih]
        by_cases h : k' = k₁
        · rw [if_pos h, if_pos h]
        · rw [if_neg h, if_neg h]
          simp [List.lookup, beq_false_of_ne h]
      · rw [if_pos (by simp [h1])]
        by_cases h2 : k' = k₁
        · subst h2
          simp [List.lookup, h1]
        · simp only [List.lookup, beq_false_of_ne h2]
          exact ih

lemma memWf_addValue (items : List (String × MemoryValue)) (keys : List String)
    (k : String) (v : MemoryValue)
    (hwf : MemWf (MemoryBlock.mk items keys)) :
    MemWf (MemoryBlock.mk (insertItem items k v)
      (if (items.lookup k).isSome then keys else keys ++ [k])) := by
  obtain ⟨hnodup, hmem⟩ := hwf
  rw [MemoryBlock.keys] at hnodup
  by_cases hk : (items.lookup k).isSome = true
  · rw [if_pos hk]
    refine ⟨hnodup, fun k' => ?_⟩
    rw [MemoryBlock.keys, MemoryBlock.items, lookup_insertItem]
    by_cases he : k' = k
    · subst he
      rw [if_pos rfl]
      simpa using (hmem k').mpr hk
    · rw [if_neg he]
      exact hmem k'
  · rw [if_neg hk]
    have hknot : k ∉ keys := fun hin => hk ((hmem k).mp hin)
    constructor
    · rw [MemoryBlock.keys]
      simp [List.nodup_append, hnodup, hknot]
    · intro k'
      rw [MemoryBlock.keys, MemoryBlock.items, lookup_insertItem,
        List.mem_append, List.mem_singleton]
      by_cases he : k' = k
      · subst he
        rw [if_pos rfl]
        simp
      · rw [if_neg he]
        have := hmem k'
        rw [MemoryBlock.keys, MemoryBlock.items] at this
        simp [this, he]

lemma memWf_addString (b : MemoryBlock) (k v : String) (hwf : MemWf b) :
    MemWf (b.addString k v) := by
  cases b with
  | mk items keys => exact memWf_addValue items keys k (MemoryValue.str v) hwf

lemma memWf_addBlock (b : MemoryBlock) (k : String) (nb : MemoryBlock)
    (hwf : MemWf b) : MemWf (b.addBlock k nb) := by
  cases b with
  | mk items keys => exact memWf_addValue items keys k (MemoryValue.block nb) hwf

lemma memWf_delete (b : MemoryBlock) (k : String) (hwf : MemWf b) :
    MemWf (b.deleteKey k).1 := by
  cases b with
  | mk items keys =>
    obtain ⟨hnodup, hmem⟩ := hwf
    rw [MemoryBlock.keys] at hnodup
    rw [MemoryBlock.deleteKey]
    by_cases hk : (items.lookup k).isSome = true
    · rw [if_pos hk]
      constructor
      · rw [MemoryBlock.keys]
        exact hnodup.erase k
      · intro k'
        rw [MemoryBlock.keys, MemoryBlock.items, lookup_filter_ne,
          hnodup.mem_erase_iff]
        by_cases he : k' = k
        · subst he
          simp
        · rw [if_neg he]
          have := hmem k'
          rw [MemoryBlock.keys, MemoryBlock.items] at this
          simp [this, he]
    · rw [if_neg hk]
      exact ⟨hnodup, hmem⟩

lemma memWf_new : MemWf NewMemoryBlock := by
  constructor
  · rw [NewMemoryBlock, MemoryBlock.keys]
    exact List.nodup_nil
  · intro k
    rw [NewMemoryBlock, MemoryBlock.keys, MemoryBlock.items]
    simp [List.lookup]

lemma memWf_applyOp (b : MemoryBlock) (op : MemOp) (hwf : MemWf b) :
    MemWf (applyOp b op) := by
  cases op with
  | addS k v => exact memWf_addString b k v hwf
  | addB k nb => exact memWf_addBlock b k nb hwf
  | del k => exact memWf_delete b k hwf

/-- C9: adding under an existing key overwrites the stored value without
duplicating the key or moving its position (the key slice is unchanged),
and every block reachable from `NewMemoryBlock` by any sequence of
`AddString`/`AddBlock`/`Delete` operations keeps its ordered key list
duplicate-free and equal (as a set) to the domain of the `Items` map. -/
theorem memoryBlock_overwrite_and_invariant (b : MemoryBlock) (k v : String)
    (nb : MemoryBlock) (h : (b.items.lookup k).isSome = true) :
    (b.addString k v).keys = b.keys
    ∧ (b.addString k v).items.lookup k = some (MemoryValue.str v)
    ∧ (b.addBlock k nb).keys = b.keys
    ∧ (b.addBlock k nb).items.lookup k = some (MemoryValue.block nb)
    ∧ MemWf NewMemoryBlock
    ∧ (∀ (b' : MemoryBlock) (op : MemOp), MemWf b' → MemWf (applyOp b' op))
    ∧ ∀ ops : List MemOp, MemWf (applyOps NewMemoryBlock ops) := by
  have hops : ∀ (ops : List MemOp) (b₀ : MemoryBlock), MemWf b₀ →
      MemWf (applyOps b₀ ops) := by
    intro ops
    induction ops with
    | nil => intro b₀ hb; exact hb
    | cons op rest ih =>
      intro b₀ hb
      exact ih (applyOp b₀ op) (memWf_applyOp b₀ op hb)
  cases b with
  | mk items keys =>
    rw [MemoryBlock.items] at h
    refine ⟨?_, ?_, ?_, ?_, memWf_new, fun b' op hb => memWf_applyOp b' op hb,
      fun ops => hops ops NewMemoryBlock memWf_new⟩
    · rw [MemoryBlock.addString, MemoryBlock.keys, if_pos h, MemoryBlock.keys]
    · rw [MemoryBlock.addString, MemoryBlock.items, lookup_insertItem,
        if_pos rfl]
    · rw [MemoryBlock.addBlock, MemoryBlock.keys, if_pos h, MemoryBlock.keys]
    · rw [MemoryBlock.addBlock, MemoryBlock.items, lookup_insertItem,
        if_pos rfl]

/-- Witness for C9 at a concrete block already holding key "a". -/
theorem memoryBlock_overwrite_and_invariant_witness :
    ((NewMemoryBlock.addString "a" "1").items.lookup "a").isSome = true
    ∧ ((NewMemoryBlock.addString "a" "1").addString "a" "2").keys
        = (NewMemoryBlock.addString "a" "1").keys
    ∧ ((NewMemoryBlock.addString "a" "1").addString "a" "2").items.lookup "a"
        = some (MemoryValue.str "2")
    ∧ MemWf NewMemoryBlock :=
  have h := memoryBlock_overwrite_and_invariant
    (NewMemoryBlock.addString "a" "1") "a" "2" NewMemoryBlock (by decide)
  ⟨by decide, h.1, h.2.1, h.2.2.2.2.1⟩
